import Mathlib

/-!
Verification of the `fast_orderbook` price-level order book.

The development shallowly embeds `src/message_types.h` and `src/orderbook.cpp`:
the 128-bit presence bitset (`Bitset128`, two 64-bit words held as `Nat` with
explicit bounds), the book state (two quantity arrays modelled as functions
`Nat → Nat` with meaningful indices below `kArraySize`, plus one bitset per
side), and the mutation and query operations.  Unsigned 32-bit wraparound in
`ApplyDelta`/`ApplyTrade` is modelled with explicit arithmetic modulo `2 ^ 32`.
-/

/-- kMaxBookLevels from message_types.h. -/
def kMaxBookLevels : Nat := 100

/-- OrderBook::kArraySize (= kMaxBookLevels). -/
def kArraySize : Nat := kMaxBookLevels

/-- kMaxBitPosition from orderbook.cpp: positions at or above 128 are ignored. -/
def kMaxBitPosition : Nat := 128

/-- OrderBook::Bitset128: a 128-bit set split into two 64-bit words.  The words
are `Nat`s; faithfulness to `uint64_t` needs the bounds `low < 2 ^ 64` and
`high < 2 ^ 64`, stated as hypotheses where they matter. -/
structure Bitset128 where
  low : Nat
  high : Nat
deriving DecidableEq, Repr

/-- Bitset128::SetBit: no-op for positions at or above 128, otherwise ORs the
selected word with the single-bit mask (C: `1ULL << pos`). -/
def Bitset128.SetBit (b : Bitset128) (pos : Nat) : Bitset128 :=
  if kMaxBitPosition ≤ pos then b
  else if pos < 64 then { b with low := b.low ||| (1 <<< pos) }
  else { b with high := b.high ||| (1 <<< (pos - 64)) }

/-- Bitset128::ClearBit: no-op for positions at or above 128, otherwise ANDs the
selected word with the complement of the single-bit mask; the 64-bit complement
`~(1ULL << pos)` is `(2 ^ 64 - 1) ^^^ (1 <<< pos)`. -/
def Bitset128.ClearBit (b : Bitset128) (pos : Nat) : Bitset128 :=
  if kMaxBitPosition ≤ pos then b
  else if pos < 64 then { b with low := b.low &&& ((2 ^ 64 - 1) ^^^ (1 <<< pos)) }
  else { b with high := b.high &&& ((2 ^ 64 - 1) ^^^ (1 <<< (pos - 64))) }

/-- Bitset128::TestBit: false for positions at or above 128, otherwise tests the
selected word against the single-bit mask. -/
def Bitset128.TestBit (b : Bitset128) (pos : Nat) : Bool :=
  if kMaxBitPosition ≤ pos then false
  else if pos < 64 then b.low &&& (1 <<< pos) != 0
  else b.high &&& (1 <<< (pos - 64)) != 0

/-- The portable fallback loop of Bitset128::HighestSetBit on one 64-bit word:
scan from bit `k - 1` down to bit 0, returning the first set position. -/
def hsbScan (x : Nat) : Nat → Option Nat
  | 0 => none
  | k + 1 => if x.testBit k then some k else hsbScan x k

/-- The portable fallback loop of Bitset128::LowestSetBit on one 64-bit word:
scan upward from bit `i` with `f` positions remaining, returning the first set
position. -/
def lsbScan (x : Nat) : Nat → Nat → Option Nat
  | _, 0 => none
  | i, f + 1 => if x.testBit i then some i else lsbScan x (i + 1) f

/-- Bitset128::HighestSetBit: check the high word first; inside a non-zero word
the loop finds the most-significant set bit (64 added for the high word);
returns -1 when no bit is set. -/
def Bitset128.HighestSetBit (b : Bitset128) : Int :=
  if b.high ≠ 0 then
    match hsbScan b.high 64 with
    | some i => 64 + (i : Int)
    | none => -1
  else if b.low ≠ 0 then
    match hsbScan b.low 64 with
    | some i => (i : Int)
    | none => -1
  else -1

/-- Bitset128::LowestSetBit: check the low word first; inside a non-zero word
the loop finds the least-significant set bit (64 added for the high word);
returns -1 when no bit is set. -/
def Bitset128.LowestSetBit (b : Bitset128) : Int :=
  if b.low ≠ 0 then
    match lsbScan b.low 0 64 with
    | some i => (i : Int)
    | none => -1
  else if b.high ≠ 0 then
    match lsbScan b.high 0 64 with
    | some i => 64 + (i : Int)
    | none => -1
  else -1

/-- Side from message_types.h. -/
inductive Side where
  | kUndefined
  | kYes
  | kNo
deriving DecidableEq, Repr

/-- SnapshotMessage: the per-side `(price[i], qty[i])` arrays of length
`yes_count` / `no_count` are modelled as lists of (price, quantity) pairs. -/
structure SnapshotMessage where
  yes_levels : List (Nat × Nat)
  no_levels : List (Nat × Nat)

/-- DeltaMessage: price (`unsigned int`), signed delta (`int`), side. -/
structure DeltaMessage where
  price : Nat
  delta : Int
  side : Side

/-- TradeMessage: yes/no prices (`unsigned int`), executed count (`int`),
taker side. -/
structure TradeMessage where
  yes_price : Nat
  no_price : Nat
  count : Int
  taker_side : Side

/-- The OrderBook state: two quantity arrays (functions on prices; only indices
below `kArraySize` are ever read or written by the operations) and the two
presence bitsets. -/
structure OrderBookState where
  bids : Nat → Nat
  asks : Nat → Nat
  bids_bitset : Bitset128
  asks_bitset : Bitset128

/-- The state built by the OrderBook constructor: both arrays zeroed, both
bitsets cleared. -/
def emptyBook : OrderBookState :=
  { bids := fun _ => 0
    asks := fun _ => 0
    bids_bitset := ⟨0, 0⟩
    asks_bitset := ⟨0, 0⟩ }

/-- One side's load loop of OrderBook::ApplySnapshot: for each (price, qty)
pair, if the price is below `kArraySize`, store qty into the array and set the
presence bit iff qty > 0; out-of-range pairs are skipped. -/
def loadLevels : (Nat → Nat) → Bitset128 → List (Nat × Nat) → (Nat → Nat) × Bitset128
  | arr, bs, [] => (arr, bs)
  | arr, bs, (p, q) :: rest =>
    if p < kArraySize then
      loadLevels (fun x => if x = p then q else arr x)
        (if 0 < q then bs.SetBit p else bs) rest
    else
      loadLevels arr bs rest

/-- OrderBook::ApplySnapshot: clear both arrays and both bitsets, then load the
bid ("yes") levels and the ask ("no") levels.  The previous state is fully
discarded. -/
def ApplySnapshot (_book : OrderBookState) (snap : SnapshotMessage) : OrderBookState :=
  { bids := (loadLevels (fun _ => 0) ⟨0, 0⟩ snap.yes_levels).1
    bids_bitset := (loadLevels (fun _ => 0) ⟨0, 0⟩ snap.yes_levels).2
    asks := (loadLevels (fun _ => 0) ⟨0, 0⟩ snap.no_levels).1
    asks_bitset := (loadLevels (fun _ => 0) ⟨0, 0⟩ snap.no_levels).2 }

/-- C unsigned 32-bit `q += d` with `q : unsigned int` and `d : int`:
the result is `(q + d)` taken modulo `2 ^ 32`. -/
def addDelta (q : Nat) (d : Int) : Nat := (((q : Int) + d) % (2 ^ 32)).toNat

/-- C unsigned 32-bit `q -= c` with `q : unsigned int` and `c : int`:
the result is `(q - c)` taken modulo `2 ^ 32`. -/
def subCount (q : Nat) (c : Int) : Nat := (((q : Int) - c) % (2 ^ 32)).toNat

/-- OrderBook::ApplyDelta: no-op when the price is out of range or the side is
undefined; otherwise add the signed delta to the side's quantity (32-bit
unsigned wraparound) and recompute the presence bit from the result. -/
def ApplyDelta (book : OrderBookState) (msg : DeltaMessage) : OrderBookState :=
  if kArraySize ≤ msg.price then book
  else
    match msg.side with
    | Side.kYes =>
      let q := addDelta (book.bids msg.price) msg.delta
      { book with
        bids := fun x => if x = msg.price then q else book.bids x
        bids_bitset :=
          if q = 0 then book.bids_bitset.ClearBit msg.price
          else book.bids_bitset.SetBit msg.price }
    | Side.kNo =>
      let q := addDelta (book.asks msg.price) msg.delta
      { book with
        asks := fun x => if x = msg.price then q else book.asks x
        asks_bitset :=
          if q = 0 then book.asks_bitset.ClearBit msg.price
          else book.asks_bitset.SetBit msg.price }
    | Side.kUndefined => book

/-- OrderBook::ApplyTrade: no-op when count ≤ 0; a "yes" taker consumes the ask
side at `no_price`, a "no" taker consumes the bid side at `yes_price`
(32-bit unsigned wraparound subtraction); the presence bit is cleared only when
the resulting quantity is exactly zero; out-of-range prices and an undefined
taker side are no-ops. -/
def ApplyTrade (book : OrderBookState) (trade : TradeMessage) : OrderBookState :=
  if trade.count ≤ 0 then book
  else
    match trade.taker_side with
    | Side.kYes =>
      if trade.no_price < kArraySize then
        let q := subCount (book.asks trade.no_price) trade.count
        { book with
          asks := fun x => if x = trade.no_price then q else book.asks x
          asks_bitset :=
            if q = 0 then book.asks_bitset.ClearBit trade.no_price
            else book.asks_bitset }
      else book
    | Side.kNo =>
      if trade.yes_price < kArraySize then
        let q := subCount (book.bids trade.yes_price) trade.count
        { book with
          bids := fun x => if x = trade.yes_price then q else book.bids x
          bids_bitset :=
            if q = 0 then book.bids_bitset.ClearBit trade.yes_price
            else book.bids_bitset }
      else book
    | Side.kUndefined => book

/-- OrderBook::BestBid: bit-scan the bid bitset from the top; if the found
index is in `[0, kArraySize)` return that price with its quantity, else the
(0, 0) sentinel. -/
def BestBid (book : OrderBookState) : Nat × Nat :=
  let idx := book.bids_bitset.HighestSetBit
  if 0 ≤ idx ∧ idx.toNat < kArraySize then (idx.toNat, book.bids idx.toNat)
  else (0, 0)

/-- OrderBook::BestAsk: bit-scan the ask bitset from the bottom; if the found
index is in `[0, kArraySize)` return that price with its quantity, else the
(0, 0) sentinel. -/
def BestAsk (book : OrderBookState) : Nat × Nat :=
  let idx := book.asks_bitset.LowestSetBit
  if 0 ≤ idx ∧ idx.toNat < kArraySize then (idx.toNat, book.asks idx.toNat)
  else (0, 0)

/-- The loop of OrderBook::GetTopNBids, on a disposable copy `mask` of the bid
bitset: repeatedly take the highest set bit, stop when none remains in range,
otherwise record the level and clear the bit in the copy. -/
def topBidsAux : Nat → Bitset128 → (Nat → Nat) → List (Nat × Nat)
  | 0, _, _ => []
  | n + 1, mask, bids =>
    let idx := mask.HighestSetBit
    if idx < 0 ∨ kArraySize ≤ idx.toNat then []
    else (idx.toNat, bids idx.toNat) :: topBidsAux n (mask.ClearBit idx.toNat) bids

/-- OrderBook::GetTopNBids (`n` is a C `int`; at most `max n 0` iterations). -/
def GetTopNBids (book : OrderBookState) (n : Int) : List (Nat × Nat) :=
  topBidsAux n.toNat book.bids_bitset book.bids

/-- The loop of OrderBook::GetTopNAsks, on a disposable copy `mask` of the ask
bitset: repeatedly take the lowest set bit, stop when none remains in range,
otherwise record the level and clear the bit in the copy. -/
def topAsksAux : Nat → Bitset128 → (Nat → Nat) → List (Nat × Nat)
  | 0, _, _ => []
  | n + 1, mask, asks =>
    let idx := mask.LowestSetBit
    if idx < 0 ∨ kArraySize ≤ idx.toNat then []
    else (idx.toNat, asks idx.toNat) :: topAsksAux n (mask.ClearBit idx.toNat) asks

/-- OrderBook::GetTopNAsks (`n` is a C `int`; at most `max n 0` iterations). -/
def GetTopNAsks (book : OrderBookState) (n : Int) : List (Nat × Nat) :=
  topAsksAux n.toNat book.asks_bitset book.asks

/-- The array/bitset invariant of the spec: for every price below
`kArraySize`, a side's presence bit is set iff that side's quantity there is
non-zero. -/
def BookInv (s : OrderBookState) : Prop :=
  ∀ p, p < kArraySize →
    ((s.bids_bitset.TestBit p = true ↔ s.bids p ≠ 0) ∧
      (s.asks_bitset.TestBit p = true ↔ s.asks p ≠ 0))

instance (s : OrderBookState) : Decidable (BookInv s) := by
  unfold BookInv; infer_instance

/-- Book states reachable from the freshly constructed (empty) book by the
three mutation entry points. -/
inductive Reachable : OrderBookState → Prop where
  | empty : Reachable emptyBook
  | snapshot (s : OrderBookState) (m : SnapshotMessage) :
      Reachable s → Reachable (ApplySnapshot s m)
  | delta (s : OrderBookState) (m : DeltaMessage) :
      Reachable s → Reachable (ApplyDelta s m)
  | trade (s : OrderBookState) (m : TradeMessage) :
      Reachable s → Reachable (ApplyTrade s m)

/-- Well-formedness of a bitset as it occurs inside a book: each word fits in
64 bits (the `uint64_t` type bound) and no bit at or above `kArraySize` is set
(the operations only ever set bits at in-range prices). -/
def Bitset128.Wf (b : Bitset128) : Prop :=
  b.low < 2 ^ 64 ∧ b.high < 2 ^ 64 ∧ ∀ j, kArraySize ≤ j → b.TestBit j = false

/-- Both presence bitsets of a book state are well-formed. -/
def StateWf (s : OrderBookState) : Prop :=
  s.bids_bitset.Wf ∧ s.asks_bitset.Wf

/-- Modelled from the spec: the brute-force linear-scan oracle for occupied bid
levels, highest price first (prices below `kArraySize` with non-zero bid
quantity, sorted descending, paired with their quantities). -/
def occBidsDesc (s : OrderBookState) : List (Nat × Nat) :=
  ((List.range kArraySize).reverse.filter (fun p => s.bids p ≠ 0)).map
    (fun p => (p, s.bids p))

/-- Modelled from the spec: the brute-force linear-scan oracle for occupied ask
levels, lowest price first (prices below `kArraySize` with non-zero ask
quantity, sorted ascending, paired with their quantities). -/
def occAsksAsc (s : OrderBookState) : List (Nat × Nat) :=
  ((List.range kArraySize).filter (fun p => s.asks p ≠ 0)).map
    (fun p => (p, s.asks p))

/-- Scenario 2 of the spec: bids [(70, 10), (65, 5)], asks [(40, 8)]. -/
def snapScenario2 : SnapshotMessage :=
  { yes_levels := [(70, 10), (65, 5)], no_levels := [(40, 8)] }

/-- The book of Scenario 2: the empty book after `snapScenario2`. -/
def exBook : OrderBookState := ApplySnapshot emptyBook snapScenario2

/-- A snapshot whose bid list repeats price 5, first with quantity 1 and then
with quantity 0. -/
def dupSnapBid : SnapshotMessage :=
  { yes_levels := [(5, 1), (5, 0)], no_levels := [] }

/-- The empty book after `dupSnapBid`. -/
def dupBidBook : OrderBookState := ApplySnapshot emptyBook dupSnapBid

/-- A snapshot whose ask list repeats price 7, first with quantity 3 and then
with quantity 0. -/
def dupSnapAsk : SnapshotMessage :=
  { yes_levels := [], no_levels := [(7, 3), (7, 0)] }

/-- The empty book after `dupSnapAsk`. -/
def dupAskBook : OrderBookState := ApplySnapshot emptyBook dupSnapAsk

/-- A snapshot whose bid list repeats price 0, first with quantity 2 and then
with quantity 0, producing a set presence bit at price 0 with stored
quantity 0. -/
def zeroLevelSnap : SnapshotMessage :=
  { yes_levels := [(0, 2), (0, 0)], no_levels := [] }

/-- The empty book after `zeroLevelSnap`. -/
def zeroLevelBook : OrderBookState := ApplySnapshot emptyBook zeroLevelSnap

example : BestBid (ApplySnapshot emptyBook ⟨[(70, 10), (65, 5)], [(40, 8)]⟩) = (70, 10) := by
  decide

example : BestAsk (ApplySnapshot emptyBook ⟨[(70, 10), (65, 5)], [(40, 8)]⟩) = (40, 8) := by
  decide

example :
    GetTopNBids (ApplySnapshot emptyBook ⟨[(70, 10), (65, 5)], [(40, 8)]⟩) 2 =
      [(70, 10), (65, 5)] := by
  decide

example : BestBid emptyBook = (0, 0) := by decide

example : (Bitset128.mk 0 (2 ^ 63)).HighestSetBit = 127 := by decide

example : (Bitset128.mk 0 (2 ^ 63)).LowestSetBit = 127 := by decide

/-- The word-level bit test used by Bitset128::TestBit agrees with
`Nat.testBit`. -/
theorem and_shift_ne_zero (x p : Nat) : (x &&& (1 <<< p) != 0) = x.testBit p := by
  rw [Nat.one_shiftLeft, Nat.and_two_pow]
  cases h : x.testBit p <;> simp [h, Nat.pow_eq_zero]

/-- TestBit at a low-word position reads `Nat.testBit` of the low word. -/
theorem TestBit_eq_low (b : Bitset128) (p : Nat) (h : p < 64) :
    b.TestBit p = b.low.testBit p := by
  unfold Bitset128.TestBit kMaxBitPosition
  rw [if_neg (by omega), if_pos h, and_shift_ne_zero]

/-- TestBit at a high-word position reads `Nat.testBit` of the high word. -/
theorem TestBit_eq_high (b : Bitset128) (p : Nat) (h1 : 64 ≤ p) (h2 : p < 128) :
    b.TestBit p = b.high.testBit (p - 64) := by
  unfold Bitset128.TestBit kMaxBitPosition
  rw [if_neg (by omega), if_neg (by omega), and_shift_ne_zero]

/-- TestBit is false at or above position 128. -/
theorem TestBit_ge (b : Bitset128) (p : Nat) (h : 128 ≤ p) : b.TestBit p = false := by
  unfold Bitset128.TestBit kMaxBitPosition
  rw [if_pos h]

/-- The all-clear bitset tests false everywhere. -/
theorem TestBit_zero (p : Nat) : (Bitset128.mk 0 0).TestBit p = false := by
  simp [Bitset128.TestBit]

/-- The descending word scan returns `none` exactly when no bit below the fuel
bound is set. -/
theorem hsbScan_eq_none (x : Nat) :
    ∀ n, hsbScan x n = none ↔ ∀ j, j < n → x.testBit j = false := by
  intro n
  induction n with
  | zero => simp [hsbScan]
  | succ k ih =>
    by_cases h : x.testBit k
    · simp only [hsbScan, h, if_pos]
      constructor
      · intro hc; cases hc
      · intro hall; exact absurd (hall k (Nat.lt_succ_self k)) (by simp [h])
    · simp only [hsbScan, h, Bool.false_eq_true, if_false]
      rw [ih]
      constructor
      · intro hall j hj
        rcases Nat.lt_succ_iff_lt_or_eq.mp hj with hj2 | rfl
        · exact hall j hj2
        · simpa using h
      · intro hall j hj; exact hall j (Nat.lt_succ_of_lt hj)

/-- The descending word scan finds the largest set bit below the fuel bound. -/
theorem hsbScan_eq_some_of (x : Nat) :
    ∀ n k, k < n → x.testBit k = true → (∀ j, k < j → j < n → x.testBit j = false) →
      hsbScan x n = some k := by
  intro n
  induction n with
  | zero => intro k hk; omega
  | succ m ih =>
    intro k hk hbit hmax
    by_cases hkm : k = m
    · subst hkm
      simp only [hsbScan, hbit, if_pos]
    · have hkm2 : k < m := by omega
      have hm : x.testBit m = false := hmax m (by omega) (Nat.lt_succ_self m)
      simp only [hsbScan, hm, Bool.false_eq_true, if_false]
      exact ih k hkm2 hbit (fun j h1 h2 => hmax j h1 (Nat.lt_succ_of_lt h2))

/-- The ascending word scan returns `none` exactly when no bit in the scanned
window is set. -/
theorem lsbScan_eq_none (x : Nat) :
    ∀ f i, lsbScan x i f = none ↔ ∀ j, i ≤ j → j < i + f → x.testBit j = false := by
  intro f
  induction f with
  | zero => intro i; simp [lsbScan]; intro j h1 h2; omega
  | succ g ih =>
    intro i
    by_cases h : x.testBit i
    · simp only [lsbScan, h, if_pos]
      constructor
      · intro hc; cases hc
      · intro hall; exact absurd (hall i (Nat.le_refl i) (by omega)) (by simp [h])
    · simp only [lsbScan, h, Bool.false_eq_true, if_false]
      rw [ih]
      constructor
      · intro hall j hj1 hj2
        by_cases hji : j = i
        · subst hji; simpa using h
        · exact hall j (by omega) (by omega)
      · intro hall j hj1 hj2; exact hall j (by omega) (by omega)

/-- The ascending word scan finds the smallest set bit in the scanned window. -/
theorem lsbScan_eq_some_of (x : Nat) :
    ∀ f i k, i ≤ k → k < i + f → x.testBit k = true →
      (∀ j, i ≤ j → j < k → x.testBit j = false) → lsbScan x i f = some k := by
  intro f
  induction f with
  | zero => intro i k h1 h2; omega
  | succ g ih =>
    intro i k h1 h2 hbit hmin
    by_cases hki : k = i
    · subst hki
      simp only [lsbScan, hbit, if_pos]
    · have hi : x.testBit i = false := hmin i (Nat.le_refl i) (by omega)
      simp only [lsbScan, hi, Bool.false_eq_true, if_false]
      exact ih (i + 1) k (by omega) (by omega) hbit (fun j hj1 hj2 => hmin j (by omega) hj2)

/-- A 64-bit word with no set bit below 64 is zero. -/
theorem eq_zero_of_low_bits (x : Nat) (hx : x < 2 ^ 64)
    (h : ∀ j, j < 64 → x.testBit j = false) : x = 0 := by
  apply Nat.eq_of_testBit_eq
  intro i
  rw [Nat.zero_testBit]
  by_cases hi : i < 64
  · exact h i hi
  · exact Nat.testBit_lt_two_pow
      (lt_of_lt_of_le hx (Nat.pow_le_pow_right (by norm_num) (by omega)))

/-- HighestSetBit returns -1 on a bitset with no set bit. -/
theorem HighestSetBit_eq_neg_one (b : Bitset128)
    (h : ∀ p, b.TestBit p = false) : b.HighestSetBit = -1 := by
  have hhigh : hsbScan b.high 64 = none := by
    rw [hsbScan_eq_none]
    intro j hj
    have h2 := h (64 + j)
    rwa [TestBit_eq_high b (64 + j) (by omega) (by omega), Nat.add_sub_cancel_left] at h2
  have hlow : hsbScan b.low 64 = none := by
    rw [hsbScan_eq_none]
    intro j hj
    have h2 := h j
    rwa [TestBit_eq_low b j hj] at h2
  by_cases hb : b.high = 0
  · by_cases hl : b.low = 0
    · simp [Bitset128.HighestSetBit, hb, hl]
    · simp [Bitset128.HighestSetBit, hb, hl, hlow]
  · simp [Bitset128.HighestSetBit, hb, hhigh]

/-- LowestSetBit returns -1 on a bitset with no set bit. -/
theorem LowestSetBit_eq_neg_one (b : Bitset128)
    (h : ∀ p, b.TestBit p = false) : b.LowestSetBit = -1 := by
  have hhigh : lsbScan b.high 0 64 = none := by
    rw [lsbScan_eq_none]
    intro j hj1 hj2
    have h2 := h (64 + j)
    rwa [TestBit_eq_high b (64 + j) (by omega) (by omega), Nat.add_sub_cancel_left] at h2
  have hlow : lsbScan b.low 0 64 = none := by
    rw [lsbScan_eq_none]
    intro j hj1 hj2
    have h2 := h j
    rwa [TestBit_eq_low b j (by omega)] at h2
  by_cases hl : b.low = 0
  · by_cases hb : b.high = 0
    · simp [Bitset128.LowestSetBit, hb, hl]
    · simp [Bitset128.LowestSetBit, hb, hl, hhigh]
  · simp [Bitset128.LowestSetBit, hl, hlow]

/-- HighestSetBit returns the position of the most-significant set bit; the
high-word bound is the `uint64_t` type bound. -/
theorem HighestSetBit_eq_of_max (b : Bitset128) (hhi : b.high < 2 ^ 64) (k : Nat)
    (hk : b.TestBit k = true) (hmax : ∀ j, k < j → b.TestBit j = false) :
    b.HighestSetBit = (k : Int) := by
  have hk128 : k < 128 := by
    by_contra h128
    rw [TestBit_ge b k (by omega)] at hk
    cases hk
  by_cases h64 : k < 64
  · have hhz : b.high = 0 := by
      apply eq_zero_of_low_bits b.high hhi
      intro j hj
      have h2 := hmax (64 + j) (by omega)
      rwa [TestBit_eq_high b (64 + j) (by omega) (by omega), Nat.add_sub_cancel_left] at h2
    have hkbit : b.low.testBit k = true := by rwa [TestBit_eq_low b k h64] at hk
    have hlz : b.low ≠ 0 := by
      intro h0
      rw [h0, Nat.zero_testBit] at hkbit
      cases hkbit
    have hscan : hsbScan b.low 64 = some k := by
      apply hsbScan_eq_some_of b.low 64 k h64 hkbit
      intro j hj1 hj2
      have h2 := hmax j hj1
      rwa [TestBit_eq_low b j hj2] at h2
    simp [Bitset128.HighestSetBit, hhz, hlz, hscan]
  · have hkbit : b.high.testBit (k - 64) = true := by
      rwa [TestBit_eq_high b k (by omega) hk128] at hk
    have hhz : b.high ≠ 0 := by
      intro h0
      rw [h0, Nat.zero_testBit] at hkbit
      cases hkbit
    have hscan : hsbScan b.high 64 = some (k - 64) := by
      apply hsbScan_eq_some_of b.high 64 (k - 64) (by omega) hkbit
      intro j hj1 hj2
      have h2 := hmax (64 + j) (by omega)
      rwa [TestBit_eq_high b (64 + j) (by omega) (by omega), Nat.add_sub_cancel_left] at h2
    simp only [Bitset128.HighestSetBit, hhz, ne_eq, not_false_eq_true, if_pos, hscan]
    omega

/-- LowestSetBit returns the position of the least-significant set bit; the
low-word bound is the `uint64_t` type bound. -/
theorem LowestSetBit_eq_of_min (b : Bitset128) (hlo : b.low < 2 ^ 64) (k : Nat)
    (hk : b.TestBit k = true) (hmin : ∀ j, j < k → b.TestBit j = false) :
    b.LowestSetBit = (k : Int) := by
  have hk128 : k < 128 := by
    by_contra h128
    rw [TestBit_ge b k (by omega)] at hk
    cases hk
  by_cases h64 : k < 64
  · have hkbit : b.low.testBit k = true := by rwa [TestBit_eq_low b k h64] at hk
    have hlz : b.low ≠ 0 := by
      intro h0
      rw [h0, Nat.zero_testBit] at hkbit
      cases hkbit
    have hscan : lsbScan b.low 0 64 = some k := by
      apply lsbScan_eq_some_of b.low 64 0 k (by omega) (by omega) hkbit
      intro j hj1 hj2
      have h2 := hmin j hj2
      rwa [TestBit_eq_low b j (by omega)] at h2
    simp [Bitset128.LowestSetBit, hlz, hscan]
  · have hlz : b.low = 0 := by
      apply eq_zero_of_low_bits b.low hlo
      intro j hj
      have h2 := hmin j (by omega)
      rwa [TestBit_eq_low b j hj] at h2
    have hkbit : b.high.testBit (k - 64) = true := by
      rwa [TestBit_eq_high b k (by omega) hk128] at hk
    have hhz : b.high ≠ 0 := by
      intro h0
      rw [h0, Nat.zero_testBit] at hkbit
      cases hkbit
    have hscan : lsbScan b.high 0 64 = some (k - 64) := by
      apply lsbScan_eq_some_of b.high 64 0 (k - 64) (by omega) (by omega) hkbit
      intro j hj1 hj2
      have h2 := hmin (64 + j) (by omega)
      rwa [TestBit_eq_high b (64 + j) (by omega) (by omega), Nat.add_sub_cancel_left] at h2
    simp [Bitset128.LowestSetBit, hlz, hhz, hscan]
    omega

/-- SetBit at an in-range position sets that bit. -/
theorem TestBit_SetBit_self (b : Bitset128) (pos : Nat) (h : pos < 128) :
    (b.SetBit pos).TestBit pos = true := by
  unfold Bitset128.SetBit kMaxBitPosition
  rw [if_neg (by omega)]
  by_cases h64 : pos < 64
  · rw [if_pos h64, TestBit_eq_low _ _ h64]
    simp [Nat.one_shiftLeft, Nat.testBit_two_pow_self]
  · rw [if_neg h64, TestBit_eq_high _ _ (by omega) h]
    simp [Nat.one_shiftLeft, Nat.testBit_two_pow_self]

/-- SetBit leaves every other bit unchanged. -/
theorem TestBit_SetBit_ne (b : Bitset128) (pos p : Nat) (h : p ≠ pos) :
    (b.SetBit pos).TestBit p = b.TestBit p := by
  unfold Bitset128.SetBit kMaxBitPosition
  by_cases h128 : 128 ≤ pos
  · rw [if_pos h128]
  · rw [if_neg h128]
    by_cases hp128 : p < 128
    · by_cases h64 : pos < 64
      · rw [if_pos h64]
        by_cases hp64 : p < 64
        · rw [TestBit_eq_low _ _ hp64, TestBit_eq_low _ _ hp64]
          simp [Nat.one_shiftLeft, Nat.testBit_two_pow_of_ne (Ne.symm h)]
        · rw [TestBit_eq_high _ _ (by omega) hp128, TestBit_eq_high _ _ (by omega) hp128]
      · rw [if_neg h64]
        by_cases hp64 : p < 64
        · rw [TestBit_eq_low _ _ hp64, TestBit_eq_low _ _ hp64]
        · rw [TestBit_eq_high _ _ (by omega) hp128, TestBit_eq_high _ _ (by omega) hp128]
          have hne : pos - 64 ≠ p - 64 := by omega
          simp [Nat.one_shiftLeft, Nat.testBit_two_pow_of_ne hne]
    · rw [TestBit_ge _ _ (by omega), TestBit_ge _ _ (by omega)]

/-- ClearBit at an in-range position clears that bit. -/
theorem TestBit_ClearBit_self (b : Bitset128) (pos : Nat) (h : pos < 128) :
    (b.ClearBit pos).TestBit pos = false := by
  unfold Bitset128.ClearBit kMaxBitPosition
  rw [if_neg (by omega)]
  by_cases h64 : pos < 64
  · rw [if_pos h64, TestBit_eq_low _ _ h64, Nat.one_shiftLeft, Nat.testBit_and,
      Nat.testBit_xor, Nat.testBit_two_pow_sub_one, Nat.testBit_two_pow_self]
    simp [h64]
  · rw [if_neg h64, TestBit_eq_high _ _ (by omega) h, Nat.one_shiftLeft, Nat.testBit_and,
      Nat.testBit_xor, Nat.testBit_two_pow_sub_one, Nat.testBit_two_pow_self]
    have h1 : pos - 64 < 64 := by omega
    simp [h1]

/-- ClearBit leaves every other bit unchanged. -/
theorem TestBit_ClearBit_ne (b : Bitset128) (pos p : Nat) (h : p ≠ pos) :
    (b.ClearBit pos).TestBit p = b.TestBit p := by
  unfold Bitset128.ClearBit kMaxBitPosition
  by_cases h128 : 128 ≤ pos
  · rw [if_pos h128]
  · rw [if_neg h128]
    by_cases hp128 : p < 128
    · by_cases h64 : pos < 64
      · rw [if_pos h64]
        by_cases hp64 : p < 64
        · rw [TestBit_eq_low _ _ hp64, TestBit_eq_low _ _ hp64, Nat.one_shiftLeft,
            Nat.testBit_and, Nat.testBit_xor, Nat.testBit_two_pow_sub_one,
            Nat.testBit_two_pow_of_ne (Ne.symm h)]
          simp [hp64]
        · rw [TestBit_eq_high _ _ (by omega) hp128, TestBit_eq_high _ _ (by omega) hp128]
      · rw [if_neg h64]
        by_cases hp64 : p < 64
        · rw [TestBit_eq_low _ _ hp64, TestBit_eq_low _ _ hp64]
        · rw [TestBit_eq_high _ _ (by omega) hp128, TestBit_eq_high _ _ (by omega) hp128,
            Nat.one_shiftLeft, Nat.testBit_and, Nat.testBit_xor,
            Nat.testBit_two_pow_sub_one]
          have hne : pos - 64 ≠ p - 64 := by omega
          have h1 : p - 64 < 64 := by omega
          rw [Nat.testBit_two_pow_of_ne hne]
          simp [h1]
    · rw [TestBit_ge _ _ (by omega), TestBit_ge _ _ (by omega)]

/-- The all-clear bitset is well-formed. -/
theorem Wf_empty : (Bitset128.mk 0 0).Wf :=
  ⟨by norm_num, by norm_num, fun j _ => TestBit_zero j⟩

/-- SetBit at an in-range price preserves bitset well-formedness. -/
theorem Wf_SetBit (b : Bitset128) (hb : b.Wf) (pos : Nat) (hpos : pos < kArraySize) :
    (b.SetBit pos).Wf := by
  obtain ⟨h1, h2, h3⟩ := hb
  have hpos128 : pos < 128 := by
    unfold kArraySize kMaxBookLevels at hpos
    omega
  refine ⟨?_, ?_, ?_⟩
  · unfold Bitset128.SetBit kMaxBitPosition
    rw [if_neg (by omega)]
    by_cases h64 : pos < 64
    · rw [if_pos h64]
      refine Nat.or_lt_two_pow h1 ?_
      rw [Nat.one_shiftLeft]
      exact Nat.pow_lt_pow_right (by norm_num) h64
    · rw [if_neg h64]
      exact h1
  · unfold Bitset128.SetBit kMaxBitPosition
    rw [if_neg (by omega)]
    by_cases h64 : pos < 64
    · rw [if_pos h64]
      exact h2
    · rw [if_neg h64]
      refine Nat.or_lt_two_pow h2 ?_
      rw [Nat.one_shiftLeft]
      exact Nat.pow_lt_pow_right (by norm_num) (by omega)
  · intro j hj
    have hne : j ≠ pos := by
      unfold kArraySize kMaxBookLevels at hpos hj
      omega
    rw [TestBit_SetBit_ne b pos j hne]
    exact h3 j hj

/-- ClearBit preserves bitset well-formedness. -/
theorem Wf_ClearBit (b : Bitset128) (hb : b.Wf) (pos : Nat) : (b.ClearBit pos).Wf := by
  obtain ⟨h1, h2, h3⟩ := hb
  by_cases h128 : 128 ≤ pos
  · unfold Bitset128.ClearBit kMaxBitPosition
    rw [if_pos h128]
    exact ⟨h1, h2, h3⟩
  · refine ⟨?_, ?_, ?_⟩
    · unfold Bitset128.ClearBit kMaxBitPosition
      rw [if_neg h128]
      by_cases h64 : pos < 64
      · rw [if_pos h64]
        exact Nat.lt_of_le_of_lt Nat.and_le_left h1
      · rw [if_neg h64]
        exact h1
    · unfold Bitset128.ClearBit kMaxBitPosition
      rw [if_neg h128]
      by_cases h64 : pos < 64
      · rw [if_pos h64]
        exact h2
      · rw [if_neg h64]
        exact Nat.lt_of_le_of_lt Nat.and_le_left h2
    · intro j hj
      by_cases hjp : j = pos
      · subst hjp
        exact TestBit_ClearBit_self b j (by omega)
      · rw [TestBit_ClearBit_ne b pos j hjp]
        exact h3 j hj

/-- The snapshot load loop only sets bits at in-range prices, so it preserves
bitset well-formedness. -/
theorem loadLevels_wf (ls : List (Nat × Nat)) :
    ∀ (arr : Nat → Nat) (bs : Bitset128), bs.Wf → ((loadLevels arr bs ls).2).Wf := by
  induction ls with
  | nil => intro arr bs h; exact h
  | cons pq rest ih =>
    intro arr bs h
    obtain ⟨p, q⟩ := pq
    simp only [loadLevels]
    by_cases hp : p < kArraySize
    · rw [if_pos hp]
      apply ih
      by_cases hq : 0 < q
      · rw [if_pos hq]
        exact Wf_SetBit bs h p hp
      · rw [if_neg hq]
        exact h
    · rw [if_neg hp]
      exact ih arr bs h

/-- Every reachable book state has well-formed presence bitsets: the word
bounds hold and no bit at or above `kArraySize` is ever set. -/
theorem reachable_wf (s : OrderBookState) (h : Reachable s) : StateWf s := by
  induction h with
  | empty => exact ⟨Wf_empty, Wf_empty⟩
  | snapshot s m _ _ =>
    exact ⟨loadLevels_wf m.yes_levels (fun _ => 0) ⟨0, 0⟩ Wf_empty,
      loadLevels_wf m.no_levels (fun _ => 0) ⟨0, 0⟩ Wf_empty⟩
  | delta s m _ ih =>
    obtain ⟨hb, ha⟩ := ih
    simp only [ApplyDelta]
    split
    · exact ⟨hb, ha⟩
    next hp =>
      split
      · refine ⟨?_, ha⟩
        split
        · exact Wf_ClearBit _ hb _
        · exact Wf_SetBit _ hb _ (by omega)
      · refine ⟨hb, ?_⟩
        split
        · exact Wf_ClearBit _ ha _
        · exact Wf_SetBit _ ha _ (by omega)
      · exact ⟨hb, ha⟩
  | trade s m _ ih =>
    obtain ⟨hb, ha⟩ := ih
    simp only [ApplyTrade]
    split
    · exact ⟨hb, ha⟩
    next hp =>
      split
      · split
        next hq =>
          refine ⟨hb, ?_⟩
          split
          · exact Wf_ClearBit _ ha _
          · exact ha
        next hq => exact ⟨hb, ha⟩
      · split
        next hq =>
          refine ⟨?_, ha⟩
          split
          · exact Wf_ClearBit _ hb _
          · exact hb
        next hq => exact ⟨hb, ha⟩
      · exact ⟨hb, ha⟩

/-- In a strictly descending list, the head of a filter is larger than every
other element passing the filter. -/
theorem filter_head_max {R : List Nat} {q : Nat → Bool} {P : Nat} {rest : List Nat}
    (hR : R.Pairwise (fun a b => b < a)) (h : R.filter q = P :: rest) :
    q P = true ∧ P ∈ R ∧ ∀ j, j ∈ R → P < j → q j = false := by
  induction R generalizing rest with
  | nil => simp at h
  | cons a R ih =>
    rw [List.pairwise_cons] at hR
    by_cases ha : q a
    · rw [List.filter_cons_of_pos ha] at h
      injection h with h1 h2
      subst h1
      refine ⟨ha, List.mem_cons_self a R, ?_⟩
      intro j hj hPj
      rcases List.mem_cons.mp hj with rfl | hj2
      · exact absurd hPj (lt_irrefl _)
      · exact absurd hPj (by have := hR.1 j hj2; omega)
    · rw [List.filter_cons_of_neg (by simpa using ha)] at h
      obtain ⟨h1, h2, h3⟩ := ih hR.2 h
      refine ⟨h1, List.mem_cons_of_mem a h2, ?_⟩
      intro j hj hPj
      rcases List.mem_cons.mp hj with rfl | hj2
      · simpa using ha
      · exact h3 j hj2 hPj

/-- In a strictly ascending list, the head of a filter is smaller than every
other element passing the filter. -/
theorem filter_head_min {R : List Nat} {q : Nat → Bool} {P : Nat} {rest : List Nat}
    (hR : R.Pairwise (fun a b => a < b)) (h : R.filter q = P :: rest) :
    q P = true ∧ P ∈ R ∧ ∀ j, j ∈ R → j < P → q j = false := by
  induction R generalizing rest with
  | nil => simp at h
  | cons a R ih =>
    rw [List.pairwise_cons] at hR
    by_cases ha : q a
    · rw [List.filter_cons_of_pos ha] at h
      injection h with h1 h2
      subst h1
      refine ⟨ha, List.mem_cons_self a R, ?_⟩
      intro j hj hjP
      rcases List.mem_cons.mp hj with rfl | hj2
      · exact absurd hjP (lt_irrefl _)
      · exact absurd hjP (by have := hR.1 j hj2; omega)
    · rw [List.filter_cons_of_neg (by simpa using ha)] at h
      obtain ⟨h1, h2, h3⟩ := ih hR.2 h
      refine ⟨h1, List.mem_cons_of_mem a h2, ?_⟩
      intro j hj hjP
      rcases List.mem_cons.mp hj with rfl | hj2
      · simpa using ha
      · exact h3 j hj2 hjP

/-- Removing the head of a filter over a duplicate-free list: excluding the
head element from the predicate filters to exactly the tail. -/
theorem filter_clear {R : List Nat} (hR : R.Nodup) {q : Nat → Bool} {P : Nat}
    {rest : List Nat} (h : R.filter q = P :: rest) :
    R.filter (fun p => decide (p ≠ P) && q p) = rest := by
  induction R generalizing rest with
  | nil => simp at h
  | cons a R ih =>
    rw [List.nodup_cons] at hR
    by_cases ha : q a
    · rw [List.filter_cons_of_pos ha] at h
      injection h with h1 h2
      subst h1
      rw [List.filter_cons_of_neg (by simp)]
      rw [← h2]
      apply List.filter_congr
      intro p hp
      have hne : p ≠ a := fun e => hR.1 (e ▸ hp)
      simp [hne]
    · rw [List.filter_cons_of_neg (by simpa using ha)] at h
      rw [List.filter_cons_of_neg (by simp [ha])]
      exact ih hR.2 h

/-- The GetTopNBids loop on a well-formed mask returns the first `fuel`
occupied positions of the mask, highest first, paired with their stored
quantities. -/
theorem topBidsAux_eq (bids : Nat → Nat) :
    ∀ (fuel : Nat) (m : Bitset128), m.Wf →
      topBidsAux fuel m bids =
        (((List.range kArraySize).reverse.filter (fun p => m.TestBit p)).map
          (fun p => (p, bids p))).take fuel := by
  intro fuel
  induction fuel with
  | zero => intro m hm; simp [topBidsAux]
  | succ n ih =>
    intro m hm
    have hKA : kArraySize = 100 := rfl
    cases h : (List.range kArraySize).reverse.filter (fun p => m.TestBit p) with
    | nil =>
      have hall : ∀ p, m.TestBit p = false := by
        intro p
        by_cases hp : p < kArraySize
        · have hmem : p ∈ (List.range kArraySize).reverse := by
            simp [List.mem_reverse, List.mem_range, hp]
          have h2 := List.filter_eq_nil_iff.mp h p hmem
          simpa using h2
        · by_cases hp2 : p < 128
          · exact hm.2.2 p (by omega)
          · exact TestBit_ge m p (by omega)
      have hneg : m.HighestSetBit = -1 := HighestSetBit_eq_neg_one m hall
      simp only [topBidsAux, hneg, h, List.map_nil, List.take_nil]
      norm_num
    | cons P rest =>
      have hR : ((List.range kArraySize).reverse).Pairwise (fun a b => b < a) := by
        rw [List.pairwise_reverse]
        exact List.pairwise_lt_range kArraySize
      obtain ⟨hqP, hPmem, hgt⟩ := filter_head_max hR h
      have hP100 : P < kArraySize := by
        rw [List.mem_reverse, List.mem_range] at hPmem
        exact hPmem
      have hmaxall : ∀ j, P < j → m.TestBit j = false := by
        intro j hj
        by_cases hj100 : j < kArraySize
        · have hjm : j ∈ (List.range kArraySize).reverse := by
            simp [List.mem_reverse, List.mem_range, hj100]
          exact hgt j hjm hj
        · by_cases hj128 : j < 128
          · exact hm.2.2 j (by omega)
          · exact TestBit_ge m j (by omega)
      have hhsb : m.HighestSetBit = (P : Int) :=
        HighestSetBit_eq_of_max m hm.2.1 P hqP hmaxall
      have hcond : ¬((P : Int) < 0 ∨ kArraySize ≤ ((P : Int)).toNat) := by omega
      have hfilter : (List.range kArraySize).reverse.filter
          (fun p => (m.ClearBit P).TestBit p) = rest := by
        have hcongr : (List.range kArraySize).reverse.filter
            (fun p => (m.ClearBit P).TestBit p)
            = (List.range kArraySize).reverse.filter
              (fun p => decide (p ≠ P) && m.TestBit p) := by
          apply List.filter_congr
          intro p hp
          by_cases hpP : p = P
          · subst hpP
            simp [TestBit_ClearBit_self m p (by omega)]
          · simp [TestBit_ClearBit_ne m P p hpP, hpP]
        rw [hcongr]
        refine filter_clear ?_ h
        rw [List.nodup_reverse]
        exact List.nodup_range kArraySize
      simp only [topBidsAux, hhsb]
      rw [if_neg hcond]
      simp only [Int.toNat_natCast]
      rw [ih (m.ClearBit P) (Wf_ClearBit m hm P), hfilter, List.map_cons,
        List.take_succ_cons]

/-- The GetTopNAsks loop on a well-formed mask returns the first `fuel`
occupied positions of the mask, lowest first, paired with their stored
quantities. -/
theorem topAsksAux_eq (asks : Nat → Nat) :
    ∀ (fuel : Nat) (m : Bitset128), m.Wf →
      topAsksAux fuel m asks =
        (((List.range kArraySize).filter (fun p => m.TestBit p)).map
          (fun p => (p, asks p))).take fuel := by
  intro fuel
  induction fuel with
  | zero => intro m hm; simp [topAsksAux]
  | succ n ih =>
    intro m hm
    have hKA : kArraySize = 100 := rfl
    cases h : (List.range kArraySize).filter (fun p => m.TestBit p) with
    | nil =>
      have hall : ∀ p, m.TestBit p = false := by
        intro p
        by_cases hp : p < kArraySize
        · have hmem : p ∈ List.range kArraySize := List.mem_range.mpr hp
          have h2 := List.filter_eq_nil_iff.mp h p hmem
          simpa using h2
        · by_cases hp2 : p < 128
          · exact hm.2.2 p (by omega)
          · exact TestBit_ge m p (by omega)
      have hneg : m.LowestSetBit = -1 := LowestSetBit_eq_neg_one m hall
      simp only [topAsksAux, hneg, h, List.map_nil, List.take_nil]
      norm_num
    | cons P rest =>
      have hR : (List.range kArraySize).Pairwise (fun a b => a < b) :=
        List.pairwise_lt_range kArraySize
      obtain ⟨hqP, hPmem, hlt⟩ := filter_head_min hR h
      have hP100 : P < kArraySize := List.mem_range.mp hPmem
      have hminall : ∀ j, j < P → m.TestBit j = false := by
        intro j hj
        have hjm : j ∈ List.range kArraySize := List.mem_range.mpr (by omega)
        exact hlt j hjm hj
      have hlsb : m.LowestSetBit = (P : Int) :=
        LowestSetBit_eq_of_min m hm.1 P hqP hminall
      have hcond : ¬((P : Int) < 0 ∨ kArraySize ≤ ((P : Int)).toNat) := by omega
      have hfilter : (List.range kArraySize).filter
          (fun p => (m.ClearBit P).TestBit p) = rest := by
        have hcongr : (List.range kArraySize).filter
            (fun p => (m.ClearBit P).TestBit p)
            = (List.range kArraySize).filter
              (fun p => decide (p ≠ P) && m.TestBit p) := by
          apply List.filter_congr
          intro p hp
          by_cases hpP : p = P
          · subst hpP
            simp [TestBit_ClearBit_self m p (by omega)]
          · simp [TestBit_ClearBit_ne m P p hpP, hpP]
        rw [hcongr]
        exact filter_clear (List.nodup_range kArraySize) h
      simp only [topAsksAux, hlsb]
      rw [if_neg hcond]
      simp only [Int.toNat_natCast]
      rw [ih (m.ClearBit P) (Wf_ClearBit m hm P), hfilter, List.map_cons,
        List.take_succ_cons]

/-- A Bool equals the decision of any proposition it is equivalent to. -/
theorem bool_eq_decide {b : Bool} {P : Prop} [Decidable P] (h : b = true ↔ P) :
    b = decide P := by
  by_cases hp : P
  · rw [h.mpr hp, decide_eq_true hp]
  · have hb : b = false := by
      cases hbt : b
      · rfl
      · exact absurd (h.mp hbt) hp
    rw [hb, decide_eq_false hp]

/-- ClearBit never turns a bit on. -/
theorem TestBit_ClearBit_le (b : Bitset128) (pos p : Nat) :
    (b.ClearBit pos).TestBit p = true → b.TestBit p = true := by
  intro h
  by_cases hpp : p = pos
  · subst hpp
    by_cases h128 : p < 128
    · rw [TestBit_ClearBit_self b p h128] at h
      cases h
    · unfold Bitset128.ClearBit kMaxBitPosition at h
      rw [if_pos (by omega)] at h
      exact h
  · rwa [TestBit_ClearBit_ne b pos p hpp] at h

/-- 32-bit unsigned subtraction of a positive in-range count from a zero
quantity wraps to `2 ^ 32 - count`, which is non-zero. -/
theorem subCount_of_zero (c : Int) (h1 : 0 < c) (h2 : c < 2 ^ 31) :
    subCount 0 c = 2 ^ 32 - c.toNat ∧ subCount 0 c ≠ 0 := by
  unfold subCount
  have hp : ((2 : Int) ^ 32) = 4294967296 := by norm_num
  have hp2 : (2 : Nat) ^ 32 = 4294967296 := by norm_num
  rw [hp, hp2]
  constructor <;> omega

/-- C1: the claimed array/bitset invariant fails on the code.  Loading a
snapshot whose bid list is [(5, 1), (5, 0)] is a single mutation from the
empty book, yet it leaves bid presence bit 5 set while the stored bid quantity
at price 5 is 0, because ApplySnapshot never clears a presence bit set by an
earlier duplicate of the same price. -/
theorem C1_invariant_violated_by_duplicate_snapshot :
    Reachable dupBidBook ∧ dupBidBook.bids 5 = 0 ∧
      dupBidBook.bids_bitset.TestBit 5 = true ∧ ¬ BookInv dupBidBook :=
  ⟨Reachable.snapshot emptyBook dupSnapBid Reachable.empty, by decide, by decide, by decide⟩

/-- C3 counterexample: BestBid on the empty bid side returns (0, 0), the very
value it returns on a book whose bid presence bit 0 is set with stored
quantity 0, so the empty result is not distinguishable from such a level. -/
theorem C3_empty_result_not_distinguishable :
    BestBid emptyBook = (0, 0) ∧ BestAsk emptyBook = (0, 0) ∧
      zeroLevelBook.bids_bitset.TestBit 0 = true ∧ zeroLevelBook.bids 0 = 0 ∧
      BestBid zeroLevelBook = (0, 0) :=
  ⟨by decide, by decide, by decide, by decide, by decide⟩

/-- C3 amended, per side: on a book whose bid side has no presence bit set,
BestBid returns the (0, 0) sentinel, and independently, on a book whose ask
side has no presence bit set, BestAsk returns the (0, 0) sentinel — the same
value as for an occupied level at price 0 with stored quantity 0, hence not a
distinguishable empty result; in particular both queries return (0, 0) on the
empty book. -/
theorem C3_amended_sentinel (s : OrderBookState) :
    ((∀ p, s.bids_bitset.TestBit p = false) → BestBid s = (0, 0)) ∧
    ((∀ p, s.asks_bitset.TestBit p = false) → BestAsk s = (0, 0)) := by
  constructor
  · intro hb
    have h1 := HighestSetBit_eq_neg_one s.bids_bitset hb
    simp only [BestBid, h1]
    norm_num
  · intro ha
    have h2 := LowestSetBit_eq_neg_one s.asks_bitset ha
    simp only [BestAsk, h2]
    norm_num

/-- C3 amended, witness: the bid half at the empty book, and the ask half at
the mixed Scenario 4 book, whose bid side is occupied while its ask side has
no presence bit set. -/
theorem C3_amended_sentinel_witness :
    BestBid emptyBook = (0, 0) ∧
      (ApplyTrade exBook (TradeMessage.mk 65 40 8 Side.kYes)).bids_bitset.TestBit 70 =
        true ∧
      BestAsk (ApplyTrade exBook (TradeMessage.mk 65 40 8 Side.kYes)) = (0, 0) := by
  refine ⟨(C3_amended_sentinel emptyBook).1 (fun p => TestBit_zero p), by decide, ?_⟩
  refine (C3_amended_sentinel (ApplyTrade exBook (TradeMessage.mk 65 40 8 Side.kYes))).2
    (fun p => ?_)
  have h : (ApplyTrade exBook (TradeMessage.mk 65 40 8 Side.kYes)).asks_bitset =
      Bitset128.mk 0 0 := by decide
  rw [h]
  exact TestBit_zero p

/-- C4: the snapshot postcondition fails on the code.  After loading a
snapshot whose ask list is [(7, 3), (7, 0)], the last pair at price 7 carries
quantity 0 and the stored ask quantity is 0, yet ask presence bit 7 is still
set. -/
theorem C4_snapshot_bit_violates_last_write :
    dupAskBook.asks 7 = 0 ∧ dupAskBook.asks_bitset.TestBit 7 = true :=
  ⟨by decide, by decide⟩

/-- C5: ApplySnapshot is idempotent full-state replacement: it discards the
previous state entirely, so applying the same snapshot twice produces the same
state as applying it once. -/
theorem C5_snapshot_idempotent (s : OrderBookState) (snap : SnapshotMessage) :
    ApplySnapshot (ApplySnapshot s snap) snap = ApplySnapshot s snap := rfl

/-- C2: on a reachable book state satisfying the array/bitset invariant,
BestBid returns the maximum-index non-zero bid level (with its quantity) and
BestAsk the minimum-index non-zero ask level. -/
theorem C2_best_queries_extremal (s : OrderBookState) (hr : Reachable s)
    (hinv : BookInv s) :
    (∀ P, P < kArraySize → s.bids P ≠ 0 →
      (∀ j, j < kArraySize → s.bids j ≠ 0 → j ≤ P) → BestBid s = (P, s.bids P)) ∧
    (∀ Q, Q < kArraySize → s.asks Q ≠ 0 →
      (∀ j, j < kArraySize → s.asks j ≠ 0 → Q ≤ j) → BestAsk s = (Q, s.asks Q)) := by
  obtain ⟨hbw, haw⟩ := reachable_wf s hr
  have hKA : kArraySize = 100 := rfl
  constructor
  · intro P hP hne hmax
    have hbit : s.bids_bitset.TestBit P = true := (hinv P hP).1.mpr hne
    have hall : ∀ j, P < j → s.bids_bitset.TestBit j = false := by
      intro j hj
      by_cases hj100 : j < kArraySize
      · by_cases hz : s.bids j = 0
        · cases hbt : s.bids_bitset.TestBit j
          · rfl
          · exact absurd ((hinv j hj100).1.mp hbt) (by simp [hz])
        · exact absurd (hmax j hj100 hz) (by omega)
      · by_cases hj128 : j < 128
        · exact hbw.2.2 j (by omega)
        · exact TestBit_ge _ j (by omega)
    have hhsb : s.bids_bitset.HighestSetBit = (P : Int) :=
      HighestSetBit_eq_of_max _ hbw.2.1 P hbit hall
    have hc : (0 : Int) ≤ (P : Int) ∧ ((P : Int)).toNat < kArraySize := by omega
    simp only [BestBid, hhsb]
    rw [if_pos hc]
    simp [Int.toNat_natCast]
  · intro Q hQ hne hmin
    have hbit : s.asks_bitset.TestBit Q = true := (hinv Q hQ).2.mpr hne
    have hall : ∀ j, j < Q → s.asks_bitset.TestBit j = false := by
      intro j hj
      have hj100 : j < kArraySize := by omega
      by_cases hz : s.asks j = 0
      · cases hbt : s.asks_bitset.TestBit j
        · rfl
        · exact absurd ((hinv j hj100).2.mp hbt) (by simp [hz])
      · exact absurd (hmin j hj100 hz) (by omega)
    have hlsb : s.asks_bitset.LowestSetBit = (Q : Int) :=
      LowestSetBit_eq_of_min _ haw.1 Q hbit hall
    have hc : (0 : Int) ≤ (Q : Int) ∧ ((Q : Int)).toNat < kArraySize := by omega
    simp only [BestAsk, hlsb]
    rw [if_pos hc]
    simp [Int.toNat_natCast]

/-- C2, witness at the Scenario 2 book: the best bid is price 70 and the best
ask price 40. -/
theorem C2_best_queries_extremal_witness :
    Reachable exBook ∧ BookInv exBook ∧ BestBid exBook = (70, exBook.bids 70) ∧
      BestAsk exBook = (40, exBook.asks 40) := by
  have hr : Reachable exBook := Reachable.snapshot emptyBook snapScenario2 Reachable.empty
  have hinv : BookInv exBook := by decide
  refine ⟨hr, hinv, ?_, ?_⟩
  · exact (C2_best_queries_extremal exBook hr hinv).1 70 (by decide) (by decide) (by decide)
  · exact (C2_best_queries_extremal exBook hr hinv).2 40 (by decide) (by decide) (by decide)

/-- C6: ApplyDelta with an out-of-range price or an undefined side, and
ApplyTrade with a non-positive count, an undefined taker side, or an
out-of-range consumed-side price, leave the whole book state unchanged. -/
theorem C6_malformed_input_no_op (s : OrderBookState) :
    (∀ m : DeltaMessage, kArraySize ≤ m.price ∨ m.side = Side.kUndefined →
      ApplyDelta s m = s) ∧
    (∀ t : TradeMessage,
      t.count ≤ 0 ∨ t.taker_side = Side.kUndefined ∨
        (t.taker_side = Side.kYes ∧ kArraySize ≤ t.no_price) ∨
        (t.taker_side = Side.kNo ∧ kArraySize ≤ t.yes_price) →
      ApplyTrade s t = s) := by
  constructor
  · intro m hm
    by_cases hp : kArraySize ≤ m.price
    · simp [ApplyDelta, hp]
    · rcases hm with hp2 | hs
      · exact absurd hp2 hp
      · simp [ApplyDelta, hp, hs]
  · intro t ht
    by_cases hc : t.count ≤ 0
    · simp [ApplyTrade, hc]
    · rcases ht with hc2 | hu | ⟨hy, hp⟩ | ⟨hn, hp⟩
      · exact absurd hc2 hc
      · simp [ApplyTrade, hc, hu]
      · have h2 : ¬ t.no_price < kArraySize := by omega
        simp [ApplyTrade, hc, hy, h2]
      · have h2 : ¬ t.yes_price < kArraySize := by omega
        simp [ApplyTrade, hc, hn, h2]

/-- C6, witness: an out-of-range delta and a zero-count trade leave the
Scenario 2 book unchanged. -/
theorem C6_malformed_input_no_op_witness :
    (kArraySize ≤ (200 : Nat) ∨ (DeltaMessage.mk 200 5 Side.kYes).side = Side.kUndefined) ∧
      ApplyDelta exBook (DeltaMessage.mk 200 5 Side.kYes) = exBook ∧
      ((0 : Int) ≤ 0 ∨ (TradeMessage.mk 65 40 0 Side.kYes).taker_side = Side.kUndefined ∨
        ((TradeMessage.mk 65 40 0 Side.kYes).taker_side = Side.kYes ∧ kArraySize ≤ 40) ∨
        ((TradeMessage.mk 65 40 0 Side.kYes).taker_side = Side.kNo ∧ kArraySize ≤ 65)) ∧
      ApplyTrade exBook (TradeMessage.mk 65 40 0 Side.kYes) = exBook := by
  have h := C6_malformed_input_no_op exBook
  exact ⟨Or.inl (by decide), h.1 ⟨200, 5, Side.kYes⟩ (Or.inl (by decide)),
    Or.inl (by decide), h.2 ⟨65, 40, 0, Side.kYes⟩ (Or.inl (by decide))⟩

/-- C7: a trade with positive count consumes the side opposite the taker at
the given consumed-side price (32-bit wraparound subtraction), clears that
price's presence bit exactly when the resulting quantity is zero, and leaves
the taker's own side and all other levels untouched. -/
theorem C7_trade_consumes_opposite_side (s : OrderBookState) (t : TradeMessage)
    (hc : 0 < t.count) :
    (t.taker_side = Side.kYes → t.no_price < kArraySize →
      (ApplyTrade s t).bids = s.bids ∧
      (ApplyTrade s t).bids_bitset = s.bids_bitset ∧
      (ApplyTrade s t).asks t.no_price = subCount (s.asks t.no_price) t.count ∧
      (∀ p, p ≠ t.no_price → (ApplyTrade s t).asks p = s.asks p) ∧
      ((ApplyTrade s t).asks_bitset.TestBit t.no_price =
        if subCount (s.asks t.no_price) t.count = 0 then false
        else s.asks_bitset.TestBit t.no_price) ∧
      (∀ p, p ≠ t.no_price →
        (ApplyTrade s t).asks_bitset.TestBit p = s.asks_bitset.TestBit p)) ∧
    (t.taker_side = Side.kNo → t.yes_price < kArraySize →
      (ApplyTrade s t).asks = s.asks ∧
      (ApplyTrade s t).asks_bitset = s.asks_bitset ∧
      (ApplyTrade s t).bids t.yes_price = subCount (s.bids t.yes_price) t.count ∧
      (∀ p, p ≠ t.yes_price → (ApplyTrade s t).bids p = s.bids p) ∧
      ((ApplyTrade s t).bids_bitset.TestBit t.yes_price =
        if subCount (s.bids t.yes_price) t.count = 0 then false
        else s.bids_bitset.TestBit t.yes_price) ∧
      (∀ p, p ≠ t.yes_price →
        (ApplyTrade s t).bids_bitset.TestBit p = s.bids_bitset.TestBit p)) := by
  have hKA : kArraySize = 100 := rfl
  have hc2 : ¬ t.count ≤ 0 := by omega
  constructor
  · intro hside hp
    simp only [ApplyTrade, if_neg hc2, hside]
    rw [if_pos hp]
    refine ⟨rfl, rfl, by simp, fun p hne => by simp [hne], ?_, ?_⟩
    · by_cases hq : subCount (s.asks t.no_price) t.count = 0
      · simp only [hq, if_pos]
        exact TestBit_ClearBit_self _ _ (by omega)
      · simp [hq]
    · intro p hne
      by_cases hq : subCount (s.asks t.no_price) t.count = 0
      · simp only [hq, if_pos]
        exact TestBit_ClearBit_ne _ _ _ hne
      · simp [hq]
  · intro hside hp
    simp only [ApplyTrade, if_neg hc2, hside]
    rw [if_pos hp]
    refine ⟨rfl, rfl, by simp, fun p hne => by simp [hne], ?_, ?_⟩
    · by_cases hq : subCount (s.bids t.yes_price) t.count = 0
      · simp only [hq, if_pos]
        exact TestBit_ClearBit_self _ _ (by omega)
      · simp [hq]
    · intro p hne
      by_cases hq : subCount (s.bids t.yes_price) t.count = 0
      · simp only [hq, if_pos]
        exact TestBit_ClearBit_ne _ _ _ hne
      · simp [hq]

/-- C7, witness (Scenario 4): the trade taker=yes, no_price=40, count=8 on the
Scenario 2 book empties the ask level at price 40 and clears its presence
bit. -/
theorem C7_trade_consumes_opposite_side_witness :
    (0 : Int) < 8 ∧
      (ApplyTrade exBook (TradeMessage.mk 65 40 8 Side.kYes)).asks 40 =
        subCount (exBook.asks 40) 8 ∧
      (ApplyTrade exBook (TradeMessage.mk 65 40 8 Side.kYes)).asks_bitset.TestBit 40 =
        false ∧
      BestAsk (ApplyTrade exBook (TradeMessage.mk 65 40 8 Side.kYes)) = (0, 0) := by
  have h := (C7_trade_consumes_opposite_side exBook ⟨65, 40, 8, Side.kYes⟩ (by decide)).1
    rfl (by decide)
  exact ⟨by decide, h.2.2.1, by decide, by decide⟩

/-- C9: on any Bitset128 (with the `uint64_t` word bounds), HighestSetBit and
LowestSetBit return -1 when no bit is set and otherwise the most- and
least-significant set positions; with only bit 127 set both return 127;
SetBit/ClearBit ignore positions at or above 128 and TestBit is false there. -/
theorem C9_bitset_queries (b : Bitset128) (hlow : b.low < 2 ^ 64)
    (hhigh : b.high < 2 ^ 64) :
    ((∀ p, b.TestBit p = false) → b.HighestSetBit = -1 ∧ b.LowestSetBit = -1) ∧
    (∀ k, b.TestBit k = true → (∀ j, k < j → b.TestBit j = false) →
      b.HighestSetBit = (k : Int)) ∧
    (∀ k, b.TestBit k = true → (∀ j, j < k → b.TestBit j = false) →
      b.LowestSetBit = (k : Int)) ∧
    (Bitset128.mk 0 (2 ^ 63)).HighestSetBit = 127 ∧
    (Bitset128.mk 0 (2 ^ 63)).LowestSetBit = 127 ∧
    (∀ pos, 128 ≤ pos →
      b.SetBit pos = b ∧ b.ClearBit pos = b ∧ b.TestBit pos = false) := by
  refine ⟨fun h => ⟨HighestSetBit_eq_neg_one b h, LowestSetBit_eq_neg_one b h⟩,
    fun k hk hmax => HighestSetBit_eq_of_max b hhigh k hk hmax,
    fun k hk hmin => LowestSetBit_eq_of_min b hlow k hk hmin,
    by decide, by decide, ?_⟩
  intro pos hpos
  refine ⟨?_, ?_, TestBit_ge b pos hpos⟩
  · unfold Bitset128.SetBit kMaxBitPosition
    rw [if_pos hpos]
  · unfold Bitset128.ClearBit kMaxBitPosition
    rw [if_pos hpos]

/-- C9, witness at the bitset with only bit 127 set. -/
theorem C9_bitset_queries_witness :
    (0 : Nat) < 2 ^ 64 ∧ (2 ^ 63 : Nat) < 2 ^ 64 ∧
      (Bitset128.mk 0 (2 ^ 63)).HighestSetBit = ((127 : Nat) : Int) ∧
      (Bitset128.mk 0 (2 ^ 63)).LowestSetBit = ((127 : Nat) : Int) := by
  refine ⟨by norm_num, by norm_num, ?_, ?_⟩
  · exact (C9_bitset_queries ⟨0, 2 ^ 63⟩ (by norm_num) (by norm_num)).2.1 127
      (by decide) (fun j hj => TestBit_ge _ j (by omega))
  · refine (C9_bitset_queries ⟨0, 2 ^ 63⟩ (by norm_num) (by norm_num)).2.2.1 127
      (by decide) (fun j hj => ?_)
    by_cases h64 : j < 64
    · rw [TestBit_eq_low _ _ h64]
      simp
    · rw [TestBit_eq_high _ _ (by omega) (by omega)]
      exact Nat.testBit_two_pow_of_ne (by omega)

/-- C10: ApplyTrade only ever clears presence bits, never sets one; trading a
positive in-range count against a level whose stored quantity is zero wraps
the 32-bit unsigned quantity to `2 ^ 32 - count` (non-zero) while leaving the
(clear) presence bit clear. -/
theorem C10_trade_wraparound_keeps_bit_clear (s : OrderBookState) (t : TradeMessage) :
    (∀ p, (ApplyTrade s t).bids_bitset.TestBit p = true →
      s.bids_bitset.TestBit p = true) ∧
    (∀ p, (ApplyTrade s t).asks_bitset.TestBit p = true →
      s.asks_bitset.TestBit p = true) ∧
    (0 < t.count → t.count < 2 ^ 31 →
      (t.taker_side = Side.kYes → t.no_price < kArraySize →
          s.asks t.no_price = 0 →
        (ApplyTrade s t).asks t.no_price = 2 ^ 32 - t.count.toNat ∧
        (ApplyTrade s t).asks t.no_price ≠ 0 ∧
        (s.asks_bitset.TestBit t.no_price = false →
          (ApplyTrade s t).asks_bitset.TestBit t.no_price = false)) ∧
      (t.taker_side = Side.kNo → t.yes_price < kArraySize →
          s.bids t.yes_price = 0 →
        (ApplyTrade s t).bids t.yes_price = 2 ^ 32 - t.count.toNat ∧
        (ApplyTrade s t).bids t.yes_price ≠ 0 ∧
        (s.bids_bitset.TestBit t.yes_price = false →
          (ApplyTrade s t).bids_bitset.TestBit t.yes_price = false))) := by
  refine ⟨?_, ?_, ?_⟩
  · intro p
    simp only [ApplyTrade]
    split
    · exact fun h => h
    · split
      · split
        · exact fun h => h
        · exact fun h => h
      · split
        · split
          · exact TestBit_ClearBit_le _ _ p
          · exact fun h => h
        · exact fun h => h
      · exact fun h => h
  · intro p
    simp only [ApplyTrade]
    split
    · exact fun h => h
    · split
      · split
        · split
          · exact TestBit_ClearBit_le _ _ p
          · exact fun h => h
        · exact fun h => h
      · split
        · exact fun h => h
        · exact fun h => h
      · exact fun h => h
  · intro hc h31
    have hc2 : ¬ t.count ≤ 0 := by omega
    obtain ⟨hwrap, hnz⟩ := subCount_of_zero t.count hc h31
    constructor
    · intro hside hp hq0
      simp only [ApplyTrade, if_neg hc2, hside]
      rw [if_pos hp]
      simp only [hq0]
      refine ⟨by simp [hwrap], by simp [hnz], ?_⟩
      intro hbit
      simp only [if_neg hnz]
      exact hbit
    · intro hside hp hq0
      simp only [ApplyTrade, if_neg hc2, hside]
      rw [if_pos hp]
      simp only [hq0]
      refine ⟨by simp [hwrap], by simp [hnz], ?_⟩
      intro hbit
      simp only [if_neg hnz]
      exact hbit

/-- C10, witness: a count-5 trade against the empty ask level at price 3
leaves the quantity wrapped to `2 ^ 32 - 5` with the presence bit clear. -/
theorem C10_trade_wraparound_keeps_bit_clear_witness :
    (0 : Int) < 5 ∧ (5 : Int) < 2 ^ 31 ∧ emptyBook.asks 3 = 0 ∧
      (ApplyTrade emptyBook (TradeMessage.mk 0 3 5 Side.kYes)).asks 3 =
        2 ^ 32 - ((5 : Int)).toNat ∧
      (ApplyTrade emptyBook (TradeMessage.mk 0 3 5 Side.kYes)).asks 3 ≠ 0 ∧
      (ApplyTrade emptyBook (TradeMessage.mk 0 3 5 Side.kYes)).asks_bitset.TestBit 3 =
        false := by
  have h := ((C10_trade_wraparound_keeps_bit_clear emptyBook
    ⟨0, 3, 5, Side.kYes⟩).2.2 (by decide) (by norm_num)).1 rfl (by decide) rfl
  exact ⟨by decide, by norm_num, rfl, h.1, h.2.1, h.2.2 (by decide)⟩
